import Mathlib

/-!
Verification of the audio-analysis core of the Beat & Stems Lab repository.

The Python sources in `src/` are shallowly embedded: machine floats are
modelled by exact rationals (`ℚ`), numpy arrays by lists, and Python dicts
with fixed key sets by Lean structures.  External library routines that are
out of the repository's scope (librosa beat tracking, the FFT, CREPE pitch
estimation, `pretty_midi` file writing) are modelled as explicit parameters
or are omitted where only their outputs matter; each such point is noted at
the definition it concerns.
-/

/-! ## Python numeric primitives

Helpers mirroring Python / numpy numeric semantics on exact rationals. -/

/-- Python's `%` operator on numbers: `a - b * floor(a / b)` (result has the
sign of `b`).  For `b = 0` Python raises; here the total function returns `a`
(`⌊a/0⌋ = 0` in Lean), a case no claim exercises. -/
def pymod (a b : ℚ) : ℚ := a - b * ⌊a / b⌋

/-- Python's `int()` applied to a number: truncation toward zero. -/
def pyint (x : ℚ) : ℤ := if 0 ≤ x then ⌊x⌋ else ⌈x⌉

/-- Round-half-to-even of a rational to an integer, the rounding used by
Python's builtin `round` and by `numpy.round`. -/
def roundHalfEven (x : ℚ) : ℤ :=
  let f := ⌊x⌋
  let r := x - f
  if r < 1/2 then f
  else if 1/2 < r then f + 1
  else if f % 2 = 0 then f else f + 1

/-- Python's `round(x, 2)`: round to two decimal places, half to even. -/
def pyround2 (x : ℚ) : ℚ := (roundHalfEven (100 * x) : ℚ) / 100

/-! ## Configuration constants (`config.py`) -/

/-- `config.py`: `MIDI_DRUM_VELOCITY = 80`. -/
def MIDI_DRUM_VELOCITY : ℕ := 80

/-- `config.py`: `MIDI_DRUM_DURATION = 0.1` seconds. -/
def MIDI_DRUM_DURATION : ℚ := 1/10

/-- `config.py`: `DRUM_MAPPING`, the drum-type → MIDI-pitch table, in source
order.  Note the keys: `closed_hat` and `open_hat`, not `hat`. -/
def DRUM_MAPPING : List (String × ℕ) :=
  [("kick", 35), ("snare", 38), ("closed_hat", 42), ("open_hat", 46), ("crash", 49)]

/-- `config.py`: `DRUM_THRESH` band-ratio thresholds. -/
def DRUM_THRESH_kick_lowband : ℚ := 65/100

/-- `config.py`: `DRUM_THRESH["snare_mid"]`. -/
def DRUM_THRESH_snare_mid : ℚ := 6/10

/-- `config.py`: `DRUM_THRESH["hat_high"]`. -/
def DRUM_THRESH_hat_high : ℚ := 6/10

/-- `config.py`: `MELODY_MIN_NOTE_DURATION = 0.1` seconds. -/
def MELODY_MIN_NOTE_DURATION : ℚ := 1/10

/-- `config.py`: `MELODY_MAX_NOTE_DURATION = 2.0` seconds. -/
def MELODY_MAX_NOTE_DURATION : ℚ := 2

/-- `config.py`: `MIDI_VELOCITY_DEFAULT = 64`. -/
def MIDI_VELOCITY_DEFAULT : ℕ := 64

/-! ## Drum analysis (`src/drums.py`) -/

/-- A classified drum hit, as produced by `classify_drum_hits`: the dict
`{"time": …, "type": …, "start_sample": …, "end_sample": …}`.  The sample
span is carried nowhere the verified functions read it, so only the two used
fields are modelled. -/
structure DrumHit where
  time : ℚ
  type : String
  deriving Repr, DecidableEq

/-- A `pretty_midi.Note`.  The source field `end` is a Lean keyword, so it is
modelled by the field `stop`. -/
structure MidiNote where
  velocity : ℕ
  pitch : ℕ
  start : ℚ
  stop : ℚ
  deriving Repr, DecidableEq

/-- The result of `create_drum_midi`: a `PrettyMIDI` object holding one drum
instrument.  Only the initial tempo and that instrument's note list are
modelled; writing the file to disk is an external side effect. -/
structure DrumMidi where
  initial_tempo : ℚ
  notes : List MidiNote
  deriving Repr, DecidableEq

/-- `drums.py`, `create_drum_midi` (lines 142–183): for each hit whose `type`
is a key of `DRUM_MAPPING`, append a note of velocity `MIDI_DRUM_VELOCITY`,
pitch `DRUM_MAPPING[type]`, start `hit["time"]`, end
`hit["time"] + MIDI_DRUM_DURATION`; hits whose type is not a key are skipped
by the `if drum_type in DRUM_MAPPING` test. -/
def create_drum_midi (drum_hits : List DrumHit) (tempo : ℚ) : DrumMidi :=
  { initial_tempo := tempo
    notes := drum_hits.filterMap (fun hit =>
      match DRUM_MAPPING.lookup hit.type with
      | some pitch =>
          some { velocity := MIDI_DRUM_VELOCITY
                 pitch := pitch
                 start := hit.time
                 stop := hit.time + MIDI_DRUM_DURATION }
      | none => none) }

/-- `numpy.fft.fftfreq n d`: the list
`[0, 1, …, ⌈n/2⌉-1, -(n/2), …, -1] / (n*d)` of sample frequencies, exactly
rational.  `drums.py` calls it with `d = 1/sr`. -/
def fftfreq (n : ℕ) (d : ℚ) : List ℚ :=
  (List.range n).map (fun k =>
    (if k < (n + 1) / 2 then (k : ℚ) else (k : ℚ) - n) / (n * d))

/-- Sum of the magnitudes at frequencies within `[lo, hi]`, over a list of
(frequency, magnitude) pairs: `np.sum(fft[(freqs >= lo) & (freqs <= hi)])`. -/
def band_energy (pairs : List (ℚ × ℚ)) (lo hi : ℚ) : ℚ :=
  ((pairs.filter (fun p => decide (lo ≤ p.1 ∧ p.1 ≤ hi))).map Prod.snd).sum

/-- `drums.py`, `classify_drum_segment` (lines 94–139).  The magnitude
spectrum `np.abs(np.fft.fft(segment))` is an external numeric routine whose
values are irrational in general; it is modelled by the explicit parameter
`fft_abs`.  (The true DFT is linear, so `fft_abs` maps the zero segment to
zeros — the only property about it the claims use, taken as a hypothesis.)
Everything else — `fftfreq`, the positive-frequency mask, the three band
energies, the zero-total guard, the ratio thresholds in priority order
kick → snare → hat — is embedded directly.  The band ratios (`kick_ratio`
etc. in the source) are only formed under `total_energy ≠ 0`. -/
def classify_drum_segment (fft_abs : List ℚ → List ℚ) (segment : List ℚ) (sr : ℚ) : String :=
  if segment.length = 0 then "unknown"
  else
    let fft := fft_abs segment
    let freqs := fftfreq segment.length (1 / sr)
    let pairs := (freqs.zip fft).filter (fun p => decide (0 < p.1))
    let kick_energy := band_energy pairs 20 150
    let snare_energy := band_energy pairs 150 800
    let hat_energy := band_energy pairs 800 8000
    let total_energy := kick_energy + snare_energy + hat_energy
    if total_energy = 0 then "unknown"
    else
      let kick_frac := kick_energy / total_energy
      let snare_frac := snare_energy / total_energy
      let hat_frac := hat_energy / total_energy
      if DRUM_THRESH_kick_lowband < kick_frac then "kick"
      else if DRUM_THRESH_snare_mid < snare_frac then "snare"
      else if DRUM_THRESH_hat_high < hat_frac then "hat"
      else "unknown"

/-- Occurrence counts of a list's elements in first-occurrence order:
`collections.Counter` built from a list, viewed as its ordered item list. -/
def countOrder (l : List ℚ) : List (ℚ × ℕ) :=
  l.foldl (fun acc x =>
    if acc.any (fun p => p.1 == x) then
      acc.map (fun p => if p.1 == x then (p.1, p.2 + 1) else p)
    else acc ++ [(x, 1)]) []

/-- `Counter.most_common(k)`: the `k` entries of largest count, ties broken
by first-occurrence order (CPython's stable descending sort / `nlargest`). -/
def mostCommon (k : ℕ) (counts : List (ℚ × ℕ)) : List (ℚ × ℕ) :=
  (counts.mergeSort (fun a b => decide (b.2 ≤ a.2))).take k

/-- The dictionary returned by `detect_drum_loop`.  The short-input branch
returns no `common_positions` key, modelled by `none`. -/
structure LoopAnalysis where
  loop_length : ℕ
  loop_confidence : ℚ
  common_positions : Option (List ℚ)
  repetitions : ℤ
  deriving Repr, DecidableEq

/-- `drums.py`, `detect_drum_loop` (lines 238–287): fewer than 4 hits yields
the zeroed record; otherwise beat-phase each hit time modulo the beat
interval, round phases to two decimals, count them, keep the (up to) 4 most
common, and derive loop length, confidence and repetition count. -/
def detect_drum_loop (drum_hits : List DrumHit) (tempo : ℚ) : LoopAnalysis :=
  if drum_hits.length < 4 then
    { loop_length := 0, loop_confidence := 0, common_positions := none, repetitions := 0 }
  else
    let beat_interval := 60 / tempo
    let beat_positions := drum_hits.map (fun h => pymod h.time beat_interval / beat_interval)
    let position_counts := countOrder (beat_positions.map pyround2)
    let common_positions := mostCommon 4 position_counts
    let loop_length := common_positions.length
    let loop_confidence :=
      ((common_positions.map (fun p => (p.2 : ℚ))).sum) / (drum_hits.length : ℚ)
    { loop_length := loop_length
      loop_confidence := loop_confidence
      common_positions := some (common_positions.map Prod.fst)
      repetitions :=
        if 0 < loop_length then
          pyint (loop_confidence * (drum_hits.length : ℚ) / (loop_length : ℚ))
        else 0 }

/-! ## Timing analysis (`src/timing.py`) -/

/-- The body of the `for beat_time in beat_times` loop of `detect_downbeats`:
a beat whose offset from the running measure start, modulo one 4-beat
measure, is within the tolerance of either measure boundary is appended as a
downbeat and resets the measure start. -/
def downbeat_step (measure_duration tolerance : ℚ) (st : ℚ × List ℚ) (beat_time : ℚ) :
    ℚ × List ℚ :=
  let time_since_measure := pymod (beat_time - st.1) measure_duration
  if time_since_measure < tolerance ∨ measure_duration - time_since_measure < tolerance then
    (beat_time, st.2 ++ [beat_time])
  else st

/-- `timing.py`, `detect_downbeats` (lines 58–94): walk the beat list with
state `(current_measure_start, downbeats)`, initialized to
`(beat_times[0], [])` and folded through `downbeat_step`.  The `sr` argument
is accepted and unused, as in the source. -/
def detect_downbeats (beat_times : List ℚ) (tempo : ℚ) (sr : ℚ) : List ℚ :=
  match beat_times with
  | [] => []
  | b0 :: _ =>
    let beat_interval := 60 / tempo
    let measure_duration := beat_interval * 4
    let tolerance := beat_interval * (1/10)
    (beat_times.foldl (downbeat_step measure_duration tolerance) (b0, [])).2

/-- The `while current_time <= duration` loop of `refine_beat_grid`, with an
explicit iteration bound.  The Python loop runs until `current_time` first
exceeds `duration` (for a positive interval); `refine_beat_grid` passes a
fuel value proved sufficient below (`gridLoopFuel_closed_form`), so on every
input the claims range over, this function equals the source loop. -/
def gridLoopFuel : ℕ → ℚ → ℚ → ℚ → List ℚ
  | 0, _, _, _ => []
  | fuel + 1, current_time, duration, beat_interval =>
    if current_time ≤ duration then
      current_time :: gridLoopFuel fuel (current_time + beat_interval) duration beat_interval
    else []

/-- `timing.py`, `refine_beat_grid` (lines 97–125): discard all but the first
detected beat and regenerate a periodic grid from it, spaced `60/tempo`,
while the running time stays `≤ duration`. -/
def refine_beat_grid (beat_times : List ℚ) (tempo : ℚ) (duration : ℚ) : List ℚ :=
  match beat_times with
  | [] => []
  | start_time :: _ =>
    let beat_interval := 60 / tempo
    gridLoopFuel ((⌊(duration - start_time) / beat_interval⌋).toNat + 2)
      start_time duration beat_interval

/-- The beat-grid record returned by `create_beat_grid`.  The
`time_signature`, `rhythm_complexity` and `syncopation` entries are produced
by separate routines (`detect_time_signature`, `analyze_rhythm_complexity`)
that neither claim reads, and are omitted from the model. -/
structure BeatGrid where
  tempo : ℚ
  beat_times : List ℚ
  downbeat_times : List ℚ
  duration : ℚ
  total_beats : ℕ
  deriving Repr, DecidableEq

/-- `timing.py`, `create_beat_grid` (lines 264–300).  The tempo, the initial
beat times and the clip duration are produced inside
`analyze_tempo_and_beats` by librosa's beat tracker — an external estimator —
so they are the parameters here.  The function then composes the in-repo
code exactly as the source does: `downbeat_times` is
`detect_downbeats(detected beats)` (computed inside `analyze_tempo_and_beats`
and passed through), while the returned `beat_times` is the *refined*
grid `refine_beat_grid(detected beats, tempo, duration)`. -/
def create_beat_grid (tempo : ℚ) (detected_beat_times : List ℚ) (duration : ℚ)
    (sr : ℚ) : BeatGrid :=
  let refined_beats := refine_beat_grid detected_beat_times tempo duration
  { tempo := tempo
    beat_times := refined_beats
    downbeat_times := detect_downbeats detected_beat_times tempo sr
    duration := duration
    total_beats := refined_beats.length }

/-! ## Melody extraction (`src/melody.py`) -/

/-- A note dictionary produced by `f0_to_midi_notes`. -/
structure MelodyNote where
  pitch : ℤ
  start_time : ℚ
  end_time : ℚ
  duration : ℚ
  confidence : ℚ
  velocity : ℤ
  deriving Repr, DecidableEq

/-- Emission of one candidate note in `f0_to_midi_notes`: the candidate is
kept only if `min_note_duration <= note_duration <= max_note_duration`;
its confidence is the mean of the run's frame confidences and its velocity
is `int(MIDI_VELOCITY_DEFAULT * avg_confidence)`. -/
def mkCandidate (min_note_duration max_note_duration : ℚ) (pitch : ℤ)
    (note_start note_end : ℚ) (confs : List ℚ) : List MelodyNote :=
  let note_duration := note_end - note_start
  if min_note_duration ≤ note_duration ∧ note_duration ≤ max_note_duration then
    let avg_confidence := confs.sum / (confs.length : ℚ)
    [{ pitch := pitch
       start_time := note_start
       end_time := note_end
       duration := note_duration
       confidence := avg_confidence
       velocity := pyint ((MIDI_VELOCITY_DEFAULT : ℚ) * avg_confidence) }]
  else []

/-- The `for i in range(1, len(valid_times))` loop of `f0_to_midi_notes`,
segmenting the frame stream into runs of constant rounded pitch.  State:
the current run's pitch, start time, accumulated confidences, and the time
of the previous frame (`valid_times[i-1]`, the end an emitted note gets).
The final `[]` case is the post-loop handling of the last run, whose end is
the last frame's time. -/
def segmentNotes (min_note_duration max_note_duration : ℚ) (current_note : ℤ)
    (note_start : ℚ) (confs : List ℚ) (prev_time : ℚ) :
    List (ℚ × ℤ × ℚ) → List MelodyNote
  | [] => mkCandidate min_note_duration max_note_duration current_note note_start prev_time confs
  | (t, m, c) :: rest =>
    if m = current_note then
      segmentNotes min_note_duration max_note_duration current_note note_start
        (confs ++ [c]) t rest
    else
      mkCandidate min_note_duration max_note_duration current_note note_start prev_time confs
        ++ segmentNotes min_note_duration max_note_duration m t [c] t rest

/-- `melody.py`, `f0_to_midi_notes` (lines 52–147).  The pitch conversion
`np.round(librosa.hz_to_midi(freq))` (`69 + 12·log2(f/440)`, rounded) is an
external, irrational-valued routine, modelled by the explicit parameter
`hz_to_midi_round`.  The repository's own logic — the confidence filter, the
0..127 validity filter, run segmentation and the duration-bounds guard — is
embedded directly.  The three input arrays are traversed in lockstep, as the
boolean-mask indexing in the source does for equal-length arrays. -/
def f0_to_midi_notes (hz_to_midi_round : ℚ → ℤ)
    (f0_times f0_frequencies f0_confidence : List ℚ)
    (confidence_threshold min_note_duration max_note_duration : ℚ) : List MelodyNote :=
  let frames := f0_times.zip (f0_frequencies.zip f0_confidence)
  let confident := frames.filter (fun f => decide (confidence_threshold < f.2.2))
  let midi := confident.map (fun f => (f.1, hz_to_midi_round f.2.1, f.2.2))
  let valid := midi.filter (fun f => decide (0 ≤ f.2.1 ∧ f.2.1 ≤ 127))
  match valid with
  | [] => []
  | (t0, m0, c0) :: rest =>
    segmentNotes min_note_duration max_note_duration m0 t0 [c0] t0 rest

/-- `np.argmin(np.abs(np.array(beat_times) - t))` followed by indexing: the
first beat time of minimal absolute distance to `t`.  The `[]` case never
arises (`quantize_notes_to_beats` only calls this with a nonempty list). -/
def nearestBeat (beat_times : List ℚ) (t : ℚ) : ℚ :=
  match beat_times with
  | [] => t
  | b :: bs => bs.foldl (fun best x => if |x - t| < |best - t| then x else best) b

/-- The per-note body of `quantize_notes_to_beats`: blend each boundary with
its nearest beat by the quantization strength, then re-clamp the end so the
duration never drops below `MELODY_MIN_NOTE_DURATION`; pitch, confidence and
velocity are carried over by `note.copy()`. -/
def quantizeOne (beat_times : List ℚ) (quantization_strength : ℚ)
    (note : MelodyNote) : MelodyNote :=
  let quantized_start := nearestBeat beat_times note.start_time
  let quantized_end := nearestBeat beat_times note.end_time
  let new_start :=
    note.start_time * (1 - quantization_strength) + quantized_start * quantization_strength
  let blended_end :=
    note.end_time * (1 - quantization_strength) + quantized_end * quantization_strength
  let new_end :=
    if blended_end - new_start < MELODY_MIN_NOTE_DURATION then
      new_start + MELODY_MIN_NOTE_DURATION
    else blended_end
  { note with start_time := new_start, end_time := new_end, duration := new_end - new_start }

/-- `melody.py`, `quantize_notes_to_beats` (lines 150–195): identity when the
beat list or the note list is empty, else the per-note quantization mapped
over the notes in order. -/
def quantize_notes_to_beats (notes : List MelodyNote) (beat_times : List ℚ)
    (quantization_strength : ℚ) : List MelodyNote :=
  if beat_times = [] ∨ notes = [] then notes
  else notes.map (quantizeOne beat_times quantization_strength)

/-- Specification-side notion used to state C7: `b` is a beat time of
minimal absolute distance to `t` among the supplied beats. -/
def IsNearestBeat (beat_times : List ℚ) (t b : ℚ) : Prop :=
  b ∈ beat_times ∧ ∀ x ∈ beat_times, |b - t| ≤ |x - t|

/-! ## Chord analysis (`src/chords.py`) -/

/-- `chords.py`, `CHORD_TEMPLATES` (lines 14–27), flattened in the source's
iteration order (roots C..B, major before minor) and already tagged with the
label the source builds, `root + quality[0].upper()`. -/
def CHORD_TEMPLATES : List (String × List ℚ) :=
  [("CM", [1, 0, 0, 0, 1, 0, 0, 1, 0, 0, 0, 0]), ("Cm", [1, 0, 0, 1, 0, 0, 0, 1, 0, 0, 0, 0]),
   ("C#M", [0, 1, 0, 0, 0, 1, 0, 0, 1, 0, 0, 0]), ("C#m", [0, 1, 0, 0, 1, 0, 0, 0, 1, 0, 0, 0]),
   ("DM", [0, 0, 1, 0, 0, 0, 1, 0, 0, 1, 0, 0]), ("Dm", [0, 0, 1, 0, 0, 1, 0, 0, 0, 1, 0, 0]),
   ("D#M", [0, 0, 0, 1, 0, 0, 0, 1, 0, 0, 1, 0]), ("D#m", [0, 0, 0, 1, 0, 0, 1, 0, 0, 0, 1, 0]),
   ("EM", [1, 0, 0, 0, 1, 0, 0, 0, 1, 0, 0, 1]), ("Em", [1, 0, 0, 0, 0, 1, 0, 0, 1, 0, 0, 1]),
   ("FM", [1, 1, 0, 0, 0, 1, 0, 0, 0, 1, 0, 0]), ("Fm", [1, 1, 0, 0, 0, 0, 1, 0, 0, 1, 0, 0]),
   ("F#M", [0, 1, 1, 0, 0, 0, 1, 0, 0, 0, 1, 0]), ("F#m", [0, 1, 1, 0, 0, 0, 0, 1, 0, 0, 1, 0]),
   ("GM", [0, 0, 1, 1, 0, 0, 0, 1, 0, 0, 0, 1]), ("Gm", [0, 0, 1, 1, 0, 0, 0, 0, 1, 0, 0, 1]),
   ("G#M", [1, 0, 0, 1, 1, 0, 0, 0, 1, 0, 0, 0]), ("G#m", [1, 0, 0, 1, 0, 1, 0, 0, 1, 0, 0, 0]),
   ("AM", [1, 1, 0, 0, 1, 1, 0, 0, 0, 1, 0, 0]), ("Am", [1, 1, 0, 0, 0, 1, 1, 0, 0, 1, 0, 0]),
   ("A#M", [0, 1, 1, 0, 0, 1, 1, 0, 0, 0, 1, 0]), ("A#m", [0, 1, 1, 0, 0, 0, 1, 1, 0, 0, 1, 0]),
   ("BM", [0, 0, 1, 1, 0, 0, 1, 1, 0, 0, 0, 1]), ("Bm", [0, 0, 1, 1, 0, 0, 0, 1, 1, 0, 0, 1])]

/-- Dot product of two equal-length vectors. -/
def dotProd (a b : List ℚ) : ℚ := (List.zipWith (· * ·) a b).sum

/-- Squared Euclidean norm. -/
def normSq (a : List ℚ) : ℚ := dotProd a a

/-- The cosine similarity `1 - scipy.spatial.distance.cosine u t`, i.e.
`s = ⟨u,t⟩ / (‖u‖‖t‖)`, represented exactly: the map `s ↦ s·|s|` is strictly
increasing and injective on the reals, and
`s·|s| = ⟨u,t⟩·|⟨u,t⟩| / (‖u‖²·‖t‖²)` is rational.  Representing every
similarity — and the running best, whose initial value `0.0` is its own
image — by this signed square makes each `>` comparison and each equality
in the source exactly equivalent to the corresponding comparison here,
while keeping the whole computation in `ℚ`. -/
def simSq (u t : List ℚ) : ℚ :=
  let d := dotProd u t
  (d * |d|) / (normSq u * normSq t)

/-- `chords.py`, `detect_chord_from_chroma` (lines 57–86): sum-normalize the
chroma vector (with the source's `1e-8` guard), then scan the 24 templates
in order, each sum-normalized, keeping the best strict improvement over the
initial `("N", 0.0)`.  Similarities are represented by their signed squares
(see `simSq`). -/
def detect_chord_from_chroma (chroma_vector : List ℚ) : String × ℚ :=
  let chroma_norm := chroma_vector.map (fun x => x / (chroma_vector.sum + 1/100000000))
  CHORD_TEMPLATES.foldl (fun best t =>
    let template_norm := t.2.map (fun x => x / t.2.sum)
    let similarity := simSq chroma_norm template_norm
    if best.2 < similarity then (t.1, similarity) else best) ("N", 0)

/-- One merged chord event, the dict
`{"time": …, "label": …, "confidence": …}`. -/
structure ChordEvent where
  time : ℚ
  label : String
  confidence : ℚ
  deriving Repr, DecidableEq

/-- The `for i in range(1, len(times))` loop of `merge_consecutive_chords`,
carrying the current chord; a window with the same label only raises the
current confidence to the max, a different label flushes the current chord
and starts a new one; at the end the current chord is appended.  The three
lists are read in lockstep; if `labels` or `confidences` is shorter than
`times` the source raises `IndexError`, a case no claim exercises (the
catch-all returns the flushed current chord). -/
def mergeAux (current : ChordEvent) :
    List ℚ → List String → List ℚ → List ChordEvent
  | t :: ts, l :: ls, c :: cs =>
    if l = current.label then
      mergeAux { current with confidence := max current.confidence c } ts ls cs
    else
      current :: mergeAux { time := t, label := l, confidence := c } ts ls cs
  | _, _, _ => [current]

/-- `chords.py`, `merge_consecutive_chords` (lines 143–185): empty `times`
yields `[]`; otherwise fold the remaining windows into the first one. -/
def merge_consecutive_chords :
    List ℚ → List String → List ℚ → List ChordEvent
  | [], _, _ => []
  | t :: ts, l :: ls, c :: cs => mergeAux { time := t, label := l, confidence := c } ts ls cs
  | _ :: _, _, _ => []

/-! ## Theorems -/

/-- Helper: a band energy over pairs whose magnitudes are all zero is zero. -/
theorem band_energy_eq_zero {pairs : List (ℚ × ℚ)} (h : ∀ p ∈ pairs, p.2 = 0)
    (lo hi : ℚ) : band_energy pairs lo hi = 0 := by
  unfold band_energy
  apply List.sum_eq_zero
  intro x hx
  rcases List.mem_map.mp hx with ⟨p, hp, rfl⟩
  exact h p (List.mem_of_mem_filter hp)

/-- Claim C9: for every drum-hit list with fewer than 4 hits and every tempo,
`detect_drum_loop` returns the zeroed record
`{loop_length: 0, loop_confidence: 0.0, repetitions: 0}` (with no
`common_positions` key), independent of the hit times. -/
theorem detect_drum_loop_short (drum_hits : List DrumHit) (tempo : ℚ)
    (h : drum_hits.length < 4) :
    detect_drum_loop drum_hits tempo =
      { loop_length := 0, loop_confidence := 0, common_positions := none,
        repetitions := 0 } := by
  unfold detect_drum_loop
  rw [if_pos h]

/-- Witness for C9 at a concrete three-hit input. -/
theorem detect_drum_loop_short_witness :
    ([⟨0, "kick"⟩, ⟨1/2, "snare"⟩, ⟨1, "kick"⟩] : List DrumHit).length < 4 ∧
    detect_drum_loop [⟨0, "kick"⟩, ⟨1/2, "snare"⟩, ⟨1, "kick"⟩] 120 =
      { loop_length := 0, loop_confidence := 0, common_positions := none,
        repetitions := 0 } :=
  ⟨by simp, detect_drum_loop_short _ 120 (by simp)⟩

/-- Claim C1, evaluation at the failing input: a classified hit of type
`"hat"` — one of the classifier's three positive output types — produces NO
MIDI note, because `DRUM_MAPPING`'s keys are `closed_hat`/`open_hat`, not
`hat`, so the `if drum_type in DRUM_MAPPING` test fails and the hit is
silently dropped. -/
theorem create_drum_midi_drops_hat :
    (create_drum_midi [{ time := 0, type := "hat" }] 120).notes = [] := by rfl

/-- Claim C8: classifying an all-zero (in particular an empty, `n = 0`)
segment returns `"unknown"`, reached through the explicit zero-total guard —
the band ratios are formed only in the `total_energy ≠ 0` branch.  The
magnitude spectrum is abstract here; the hypothesis is the linearity fact
that the DFT of the zero signal is zero. -/
theorem classify_drum_segment_zero_segment (fft_abs : List ℚ → List ℚ) (n : ℕ)
    (sr : ℚ) (hfft : fft_abs (List.replicate n 0) = List.replicate n 0) :
    classify_drum_segment fft_abs (List.replicate n 0) sr = "unknown" := by
  rcases Nat.eq_zero_or_pos n with hn | hn
  · subst hn; simp [classify_drum_segment]
  · have hz : ∀ p ∈ ((fftfreq (List.replicate n (0:ℚ)).length (1/sr)).zip
        (fft_abs (List.replicate n 0))).filter (fun p => decide ((0:ℚ) < p.1)),
        p.2 = (0:ℚ) := by
      intro p hp
      have hp2 := List.mem_of_mem_filter hp
      rw [hfft] at hp2
      exact List.eq_of_mem_replicate (List.of_mem_zip hp2).2
    unfold classify_drum_segment
    rw [if_neg (by simp; omega)]
    simp only [band_energy_eq_zero hz]
    norm_num

/-- Witness for C8: a concrete four-sample zero segment with the identity
in place of the magnitude spectrum (which is correct on the zero segment). -/
theorem classify_drum_segment_zero_segment_witness :
    (id (List.replicate 4 (0:ℚ)) = List.replicate 4 0) ∧
    classify_drum_segment id (List.replicate 4 0) 44100 = "unknown" :=
  ⟨rfl, classify_drum_segment_zero_segment id 4 44100 rfl⟩

/-- Helper: once the running time has passed the duration, the grid loop
stops regardless of remaining fuel. -/
theorem gridLoopFuel_nil {fuel : ℕ} {s d i : ℚ} (h : d < s) :
    gridLoopFuel fuel s d i = [] := by
  cases fuel with
  | zero => rfl
  | succ f => simp [gridLoopFuel, not_le.mpr h]

/-- Helper: with a positive interval and sufficient fuel, the grid loop
emits exactly the arithmetic progression `s, s+i, …` of all terms `≤ d`. -/
theorem gridLoopFuel_closed_form {i : ℚ} (hi : 0 < i) :
    ∀ (fuel : ℕ) (s d : ℚ), s ≤ d → (⌊(d - s) / i⌋).toNat + 2 ≤ fuel →
      gridLoopFuel fuel s d i =
        (List.range ((⌊(d - s) / i⌋).toNat + 1)).map (fun k : ℕ => s + (k : ℚ) * i) := by
  intro fuel
  induction fuel with
  | zero => intro s d _ hf; omega
  | succ f ih =>
    intro s d hsd hf
    have hK0 : 0 ≤ ⌊(d - s) / i⌋ := Int.floor_nonneg.mpr (div_nonneg (by linarith) hi.le)
    by_cases hK : ⌊(d - s) / i⌋ = 0
    · have h1 : (d - s) / i < 1 := by
        have h0 := Int.lt_floor_add_one ((d - s) / i)
        rw [hK] at h0
        exact_mod_cast h0
      have hdi : d < s + i := by
        have h2 : d - s < i := by
          have := (div_lt_one hi).mp h1
          linarith
        linarith
      simp only [gridLoopFuel]
      rw [if_pos hsd, gridLoopFuel_nil hdi, hK]
      simp [List.range_succ]
    · have hsi : s + i ≤ d := by
        have h1 : (1 : ℚ) ≤ (d - s) / i := by
          exact_mod_cast Int.le_floor.mp (by omega : 1 ≤ ⌊(d - s) / i⌋)
        have h2 : 1 * i ≤ d - s := (le_div_iff₀ hi).mp h1
        linarith
      have hfloor : ⌊(d - (s + i)) / i⌋ = ⌊(d - s) / i⌋ - 1 := by
        have heq : (d - (s + i)) / i = (d - s) / i - 1 := by
          field_simp
          ring
        rw [heq, Int.floor_sub_one]
      simp only [gridLoopFuel]
      rw [if_pos hsd, ih (s + i) d hsi (by rw [hfloor]; omega), hfloor]
      have hnat : (⌊(d - s) / i⌋ - 1).toNat + 1 = (⌊(d - s) / i⌋).toNat := by omega
      rw [hnat, List.range_succ_eq_map, List.map_cons, List.map_map]
      congr 1
      · norm_num
      · apply List.map_congr_left
        intro k _
        simp only [Function.comp_apply]
        push_cast
        ring

/-- Helper: the closed form of `refine_beat_grid` on a nonempty beat list
whose first beat does not exceed the duration. -/
theorem refine_beat_grid_closed_form (b0 : ℚ) (rest : List ℚ) (tempo duration : ℚ)
    (ht : 0 < tempo) (hb : b0 ≤ duration) :
    refine_beat_grid (b0 :: rest) tempo duration =
      (List.range ((⌊(duration - b0) / (60 / tempo)⌋).toNat + 1)).map
        (fun k : ℕ => b0 + (k : ℚ) * (60 / tempo)) := by
  have hi : (0:ℚ) < 60 / tempo := by positivity
  simp only [refine_beat_grid]
  exact gridLoopFuel_closed_form hi _ b0 duration hb (le_refl _)

/-- Claim C4: for tempo > 0, a nonempty beat list, and duration at least the
first beat time, `refine_beat_grid` returns the maximal arithmetic
progression starting at the first detected beat with common difference
`60/tempo` all of whose elements are `≤ duration`: the result is exactly
that progression (first conjunct), every element is `≤ duration` (second),
one more step would exceed the duration (third), and the list is strictly
increasing, hence evenly spaced by construction (fourth). -/
theorem refine_beat_grid_maximal_grid (b0 : ℚ) (rest : List ℚ) (tempo duration : ℚ)
    (ht : 0 < tempo) (hb : b0 ≤ duration) :
    (refine_beat_grid (b0 :: rest) tempo duration =
      (List.range (refine_beat_grid (b0 :: rest) tempo duration).length).map
        (fun k : ℕ => b0 + (k : ℚ) * (60 / tempo))) ∧
    (∀ x ∈ refine_beat_grid (b0 :: rest) tempo duration, x ≤ duration) ∧
    duration <
      b0 + ((refine_beat_grid (b0 :: rest) tempo duration).length : ℚ) * (60 / tempo) ∧
    List.Chain' (· < ·) (refine_beat_grid (b0 :: rest) tempo duration) := by
  have hi : (0:ℚ) < 60 / tempo := by positivity
  have hcf := refine_beat_grid_closed_form b0 rest tempo duration ht hb
  have hK0 : 0 ≤ ⌊(duration - b0) / (60 / tempo)⌋ :=
    Int.floor_nonneg.mpr (div_nonneg (by linarith) hi.le)
  have hlen : (refine_beat_grid (b0 :: rest) tempo duration).length =
      (⌊(duration - b0) / (60 / tempo)⌋).toNat + 1 := by
    rw [hcf]; simp
  refine ⟨?_, ?_, ?_, ?_⟩
  · rw [hlen, hcf]
  · intro x hx
    rw [hcf] at hx
    rcases List.mem_map.mp hx with ⟨k, hk, rfl⟩
    rw [List.mem_range] at hk
    have hk' : (k : ℤ) ≤ ⌊(duration - b0) / (60 / tempo)⌋ := by omega
    have hk2 : (k : ℚ) ≤ (duration - b0) / (60 / tempo) := by
      exact_mod_cast Int.le_floor.mp hk'
    have hk3 : (k : ℚ) * (60 / tempo) ≤ duration - b0 := (le_div_iff₀ hi).mp hk2
    linarith
  · rw [hlen]
    have h1 : (duration - b0) / (60 / tempo) <
        (⌊(duration - b0) / (60 / tempo)⌋ : ℚ) + 1 := Int.lt_floor_add_one _
    have h2 : duration - b0 < ((⌊(duration - b0) / (60 / tempo)⌋ : ℚ) + 1) * (60 / tempo) :=
      (div_lt_iff₀ hi).mp h1
    have hcast : ((⌊(duration - b0) / (60 / tempo)⌋.toNat : ℚ)) =
        ((⌊(duration - b0) / (60 / tempo)⌋ : ℚ)) := by
      exact_mod_cast congrArg (fun z : ℤ => (z : ℚ)) (Int.toNat_of_nonneg hK0)
    push_cast
    rw [hcast]
    linarith
  · rw [hcf]
    refine List.Pairwise.chain' ?_
    refine List.Pairwise.map _ ?_ (List.pairwise_lt_range _)
    intro a b hab
    have hq : (a : ℚ) < (b : ℚ) := by exact_mod_cast hab
    have := mul_lt_mul_of_pos_right hq hi
    linarith

/-- Witness for C4 at tempo 60, beat list `[0]`, duration 2. -/
theorem refine_beat_grid_maximal_grid_witness :
    (0:ℚ) < 60 ∧ (0:ℚ) ≤ 2 ∧
    ((refine_beat_grid [(0:ℚ)] 60 2 =
        (List.range (refine_beat_grid [(0:ℚ)] 60 2).length).map
          (fun k : ℕ => 0 + (k : ℚ) * (60 / 60))) ∧
     (∀ x ∈ refine_beat_grid [(0:ℚ)] 60 2, x ≤ 2) ∧
     (2:ℚ) < 0 + ((refine_beat_grid [(0:ℚ)] 60 2).length : ℚ) * (60 / 60) ∧
     List.Chain' (· < ·) (refine_beat_grid [(0:ℚ)] 60 2)) :=
  ⟨by norm_num, by norm_num,
   refine_beat_grid_maximal_grid 0 [] 60 2 (by norm_num) (by norm_num)⟩

/-- Helper: every downbeat accumulated by the `detect_downbeats` fold comes
from the initial accumulator or from the traversed beat list. -/
theorem downbeat_foldl_mem (md tol : ℚ) :
    ∀ (l : List ℚ) (cur : ℚ) (acc : List ℚ) (x : ℚ),
      x ∈ (l.foldl (downbeat_step md tol) (cur, acc)).2 → x ∈ acc ∨ x ∈ l := by
  intro l
  induction l with
  | nil => intro cur acc x hx; exact Or.inl hx
  | cons t l ih =>
    intro cur acc x hx
    rw [List.foldl_cons] at hx
    have hstep : downbeat_step md tol (cur, acc) t = (t, acc ++ [t]) ∨
        downbeat_step md tol (cur, acc) t = (cur, acc) := by
      by_cases hc : pymod (t - cur) md < tol ∨ md - pymod (t - cur) md < tol
      · exact Or.inl (by simp [downbeat_step, hc])
      · exact Or.inr (by simp [downbeat_step, hc])
    rcases hstep with h | h <;> rw [h] at hx
    · rcases ih t (acc ++ [t]) x hx with h1 | h1
      · rcases List.mem_append.mp h1 with h2 | h2
        · exact Or.inl h2
        · simp only [List.mem_singleton] at h2
          subst h2
          exact Or.inr (List.mem_cons_self _ _)
      · exact Or.inr (List.mem_cons_of_mem _ h1)
    · rcases ih cur acc x hx with h1 | h1
      · exact Or.inl h1
      · exact Or.inr (List.mem_cons_of_mem _ h1)

/-- Claim C2, amended: every element of the `downbeat_times` of the record
returned by `create_beat_grid` is an element of the DETECTED beat-time list
the beat tracker produced (the list `detect_downbeats` walks) — but not in
general of the returned, refined `beat_times`, as the counterexample shows. -/
theorem create_beat_grid_downbeats_subset_detected
    (tempo : ℚ) (detected_beat_times : List ℚ) (duration sr : ℚ) :
    ∀ x ∈ (create_beat_grid tempo detected_beat_times duration sr).downbeat_times,
      x ∈ detected_beat_times := by
  intro x hx
  simp only [create_beat_grid] at hx
  cases detected_beat_times with
  | nil => simp [detect_downbeats] at hx
  | cons b0 bt =>
    simp only [detect_downbeats] at hx
    rcases downbeat_foldl_mem _ _ (b0 :: bt) b0 [] x hx with h | h
    · simp at h
    · exact h

/-- Witness for the amended C2 at a concrete one-beat grid. -/
theorem create_beat_grid_downbeats_subset_detected_witness :
    ((0:ℚ) ∈ (create_beat_grid 60 [(0:ℚ)] 1 44100).downbeat_times) ∧
    (0:ℚ) ∈ [(0:ℚ)] :=
  ⟨by norm_num [create_beat_grid, detect_downbeats, downbeat_step, pymod],
   create_beat_grid_downbeats_subset_detected 60 [0] 1 44100 0
     (by norm_num [create_beat_grid, detect_downbeats, downbeat_step, pymod])⟩

/-- Claim C2, counterexample: with detected beats `[0, 3.95]`, tempo 60 and
duration 5, the beat at 3.95 s is marked a downbeat (it lies within the 10%
tolerance below the 4-beat measure boundary), yet the returned `beat_times`
is the regenerated grid `[0, 1, 2, 3, 4, 5]`, which does not contain 3.95 —
so `downbeat_times` is NOT a subset of the returned `beat_times`. -/
theorem create_beat_grid_downbeats_not_subset_of_returned :
    (79/20 : ℚ) ∈ (create_beat_grid 60 [0, 79/20] 5 44100).downbeat_times ∧
    (79/20 : ℚ) ∉ (create_beat_grid 60 [0, 79/20] 5 44100).beat_times := by
  constructor
  · norm_num [create_beat_grid, detect_downbeats, downbeat_step, pymod]
  · have h := refine_beat_grid_closed_form 0 [79/20] 60 5 (by norm_num) (by norm_num)
    simp only [create_beat_grid]
    rw [h, show (⌊((5:ℚ) - 0) / (60 / 60)⌋) = 5 from by norm_num,
      show (Int.toNat 5 + 1) = 6 from rfl]
    simp only [List.range_succ, List.range_zero]
    norm_num

/-- Claim C10: for every note list, beat list and strength,
`quantize_notes_to_beats` returns a list of the same length and order in
which each note keeps its pitch, confidence and velocity (only the timing
fields may change); in particular this holds for every nonempty beat list. -/
theorem quantize_notes_to_beats_preserves_non_timing
    (notes : List MelodyNote) (beat_times : List ℚ) (quantization_strength : ℚ) :
    List.Forall₂ (fun n q => q.pitch = n.pitch ∧ q.confidence = n.confidence ∧
        q.velocity = n.velocity)
      notes (quantize_notes_to_beats notes beat_times quantization_strength) := by
  unfold quantize_notes_to_beats
  split
  · exact List.forall₂_same.mpr (fun n _ => ⟨rfl, rfl, rfl⟩)
  · rw [List.forall₂_map_right_iff]
    exact List.forall₂_same.mpr (fun n _ => ⟨rfl, rfl, rfl⟩)

/-- Helper: the fold inside `nearestBeat` returns an element of `b :: bs`
whose distance to `t` is minimal over `b :: bs`. -/
theorem nearestBeat_foldl_spec (t : ℚ) :
    ∀ (bs : List ℚ) (b : ℚ),
      (bs.foldl (fun best x => if |x - t| < |best - t| then x else best) b ∈ b :: bs) ∧
      ∀ x ∈ b :: bs,
        |bs.foldl (fun best x => if |x - t| < |best - t| then x else best) b - t| ≤ |x - t| := by
  intro bs
  induction bs with
  | nil =>
    intro b
    refine ⟨List.mem_cons_self _ _, ?_⟩
    intro x hx
    rcases List.mem_singleton.mp hx with rfl
    simp
  | cons c cs ih =>
    intro b
    rw [List.foldl_cons]
    by_cases hc : |c - t| < |b - t|
    · simp only [if_pos hc]
      obtain ⟨h1, h2⟩ := ih c
      refine ⟨?_, ?_⟩
      · rcases List.mem_cons.mp h1 with h | h
        · rw [h]; exact List.mem_cons_of_mem _ (List.mem_cons_self _ _)
        · exact List.mem_cons_of_mem _ (List.mem_cons_of_mem _ h)
      · intro x hx
        rcases List.mem_cons.mp hx with rfl | hx
        · exact le_trans (h2 c (List.mem_cons_self _ _)) hc.le
        · exact h2 x hx
    · simp only [if_neg hc]
      obtain ⟨h1, h2⟩ := ih b
      refine ⟨?_, ?_⟩
      · rcases List.mem_cons.mp h1 with h | h
        · rw [h]; exact List.mem_cons_self _ _
        · exact List.mem_cons_of_mem _ (List.mem_cons_of_mem _ h)
      · intro x hx
        rcases List.mem_cons.mp hx with rfl | hx
        · exact h2 x (List.mem_cons_self _ _)
        · rcases List.mem_cons.mp hx with rfl | hx
          · exact le_trans (h2 b (List.mem_cons_self _ _)) (not_lt.mp hc)
          · exact h2 x (List.mem_cons_of_mem _ hx)

/-- Helper: on a nonempty beat list, `nearestBeat` returns a beat of minimal
absolute distance (the source's `argmin`). -/
theorem nearestBeat_isNearest (beat_times : List ℚ) (hb : beat_times ≠ []) (t : ℚ) :
    IsNearestBeat beat_times t (nearestBeat beat_times t) := by
  cases beat_times with
  | nil => exact absurd rfl hb
  | cons b bs =>
    obtain ⟨h1, h2⟩ := nearestBeat_foldl_spec t bs b
    exact ⟨h1, h2⟩

/-- Helper: at strength 0 the per-note quantization keeps the start and
keeps the end unless the clamp to the minimum duration fires. -/
theorem quantizeOne_strength_zero (beat_times : List ℚ) (n : MelodyNote) :
    (quantizeOne beat_times 0 n).start_time = n.start_time ∧
    (quantizeOne beat_times 0 n).end_time =
      if n.end_time - n.start_time < MELODY_MIN_NOTE_DURATION
      then n.start_time + MELODY_MIN_NOTE_DURATION else n.end_time := by
  have hs : n.start_time * (1 - 0) + nearestBeat beat_times n.start_time * 0
      = n.start_time := by ring
  have he : n.end_time * (1 - 0) + nearestBeat beat_times n.end_time * 0
      = n.end_time := by ring
  simp only [quantizeOne]
  rw [hs, he]
  exact ⟨rfl, rfl⟩

/-- Helper: at strength 1 the per-note quantization snaps the start to the
nearest beat and the end to the nearest beat unless the clamp fires. -/
theorem quantizeOne_strength_one (beat_times : List ℚ) (n : MelodyNote) :
    (quantizeOne beat_times 1 n).start_time = nearestBeat beat_times n.start_time ∧
    (quantizeOne beat_times 1 n).end_time =
      if nearestBeat beat_times n.end_time - nearestBeat beat_times n.start_time <
          MELODY_MIN_NOTE_DURATION
      then nearestBeat beat_times n.start_time + MELODY_MIN_NOTE_DURATION
      else nearestBeat beat_times n.end_time := by
  have hs : n.start_time * (1 - 1) + nearestBeat beat_times n.start_time * 1
      = nearestBeat beat_times n.start_time := by ring
  have he : n.end_time * (1 - 1) + nearestBeat beat_times n.end_time * 1
      = nearestBeat beat_times n.end_time := by ring
  simp only [quantizeOne]
  rw [hs, he]
  exact ⟨rfl, rfl⟩

/-- Claim C7, amended: for every note list and nonempty beat list,
`quantize_notes_to_beats` with strength 0 returns every note with its
start time unchanged and its end time unchanged — except that a note whose
duration is below `MELODY_MIN_NOTE_DURATION` has its end re-clamped to
start + `MELODY_MIN_NOTE_DURATION`; with strength 1 every start time is a
beat nearest the original start and every end time is a beat nearest the
original end — except that when the two snapped boundaries are less than
`MELODY_MIN_NOTE_DURATION` apart the end is re-clamped to the snapped
start + `MELODY_MIN_NOTE_DURATION`. -/
theorem quantize_notes_to_beats_strength_endpoints
    (notes : List MelodyNote) (beat_times : List ℚ) (hb : beat_times ≠ []) :
    List.Forall₂ (fun n q =>
        q.start_time = n.start_time ∧
        q.end_time = if n.end_time - n.start_time < MELODY_MIN_NOTE_DURATION
          then n.start_time + MELODY_MIN_NOTE_DURATION else n.end_time)
      notes (quantize_notes_to_beats notes beat_times 0) ∧
    List.Forall₂ (fun n q =>
        IsNearestBeat beat_times n.start_time q.start_time ∧
        ((¬ nearestBeat beat_times n.end_time - nearestBeat beat_times n.start_time <
            MELODY_MIN_NOTE_DURATION ∧ IsNearestBeat beat_times n.end_time q.end_time) ∨
         (nearestBeat beat_times n.end_time - nearestBeat beat_times n.start_time <
            MELODY_MIN_NOTE_DURATION ∧
          q.end_time = q.start_time + MELODY_MIN_NOTE_DURATION)))
      notes (quantize_notes_to_beats notes beat_times 1) := by
  constructor
  · unfold quantize_notes_to_beats
    split
    · rename_i hcond
      rcases hcond with h | h
      · exact absurd h hb
      · subst h
        exact List.Forall₂.nil
    · rw [List.forall₂_map_right_iff]
      refine List.forall₂_same.mpr (fun n _ => ?_)
      exact quantizeOne_strength_zero beat_times n
  · unfold quantize_notes_to_beats
    split
    · rename_i hcond
      rcases hcond with h | h
      · exact absurd h hb
      · subst h
        exact List.Forall₂.nil
    · rw [List.forall₂_map_right_iff]
      refine List.forall₂_same.mpr (fun n _ => ?_)
      obtain ⟨h1, h2⟩ := quantizeOne_strength_one beat_times n
      refine ⟨h1 ▸ nearestBeat_isNearest beat_times hb n.start_time, ?_⟩
      by_cases hc : nearestBeat beat_times n.end_time -
          nearestBeat beat_times n.start_time < MELODY_MIN_NOTE_DURATION
      · right
        rw [h2, if_pos hc, h1]
        exact ⟨hc, rfl⟩
      · left
        rw [h2, if_neg hc]
        exact ⟨hc, nearestBeat_isNearest beat_times hb n.end_time⟩

/-- Witness for the amended C7 at a one-note, two-beat input. -/
theorem quantize_notes_to_beats_strength_endpoints_witness :
    (([0, 1] : List ℚ) ≠ []) ∧
    (List.Forall₂ (fun n q : MelodyNote =>
        q.start_time = n.start_time ∧
        q.end_time = if n.end_time - n.start_time < MELODY_MIN_NOTE_DURATION
          then n.start_time + MELODY_MIN_NOTE_DURATION else n.end_time)
      ([{ pitch := 60, start_time := 0, end_time := 1/2, duration := 1/2,
          confidence := 1, velocity := 64 }] : List MelodyNote)
      (quantize_notes_to_beats
        [{ pitch := 60, start_time := 0, end_time := 1/2, duration := 1/2,
           confidence := 1, velocity := 64 }] [0, 1] 0) ∧
     List.Forall₂ (fun n q : MelodyNote =>
        IsNearestBeat [0, 1] n.start_time q.start_time ∧
        ((¬ nearestBeat [0, 1] n.end_time - nearestBeat [0, 1] n.start_time <
            MELODY_MIN_NOTE_DURATION ∧ IsNearestBeat [0, 1] n.end_time q.end_time) ∨
         (nearestBeat [0, 1] n.end_time - nearestBeat [0, 1] n.start_time <
            MELODY_MIN_NOTE_DURATION ∧
          q.end_time = q.start_time + MELODY_MIN_NOTE_DURATION)))
      ([{ pitch := 60, start_time := 0, end_time := 1/2, duration := 1/2,
          confidence := 1, velocity := 64 }] : List MelodyNote)
      (quantize_notes_to_beats
        [{ pitch := 60, start_time := 0, end_time := 1/2, duration := 1/2,
           confidence := 1, velocity := 64 }] [0, 1] 1)) :=
  ⟨by simp,
   quantize_notes_to_beats_strength_endpoints
     [{ pitch := 60, start_time := 0, end_time := 1/2, duration := 1/2,
        confidence := 1, velocity := 64 }] [0, 1] (by simp)⟩

/-- Claim C7, counterexample: at strength 0 a note of duration 1/20 second
(below `MELODY_MIN_NOTE_DURATION = 1/10`) does NOT keep its end time — the
re-clamp rewrites it to start + 1/10 — refuting "strength 0 returns every
note with start_time and end_time identical to the input". -/
theorem quantize_notes_to_beats_strength_zero_not_identity :
    (quantize_notes_to_beats
        [{ pitch := 60, start_time := 0, end_time := 1/20, duration := 1/20,
           confidence := 1, velocity := 64 }] [0] 0).map MelodyNote.end_time
      = [1/10] ∧ ((1:ℚ)/10 ≠ 1/20) := by
  constructor
  · norm_num [quantize_notes_to_beats, quantizeOne, nearestBeat,
      MELODY_MIN_NOTE_DURATION]
  · norm_num

/-- Helper: every note `mkCandidate` emits passes the duration-bounds guard,
and its stored duration is `end - start`. -/
theorem mkCandidate_mem (min_note_duration max_note_duration : ℚ) (p : ℤ)
    (s e : ℚ) (confs : List ℚ) :
    ∀ note ∈ mkCandidate min_note_duration max_note_duration p s e confs,
      min_note_duration ≤ note.duration ∧ note.duration ≤ max_note_duration ∧
      note.duration = note.end_time - note.start_time := by
  intro note h
  simp only [mkCandidate] at h
  split at h
  · rename_i hcond
    rcases List.mem_singleton.mp h with rfl
    exact ⟨hcond.1, hcond.2, rfl⟩
  · exact absurd h (List.not_mem_nil note)

/-- Helper: every note the segmentation loop emits passes the
duration-bounds guard, and its stored duration is `end - start`. -/
theorem segmentNotes_mem (min_note_duration max_note_duration : ℚ) :
    ∀ (rest : List (ℚ × ℤ × ℚ)) (current_note : ℤ) (note_start : ℚ)
      (confs : List ℚ) (prev_time : ℚ),
      ∀ note ∈ segmentNotes min_note_duration max_note_duration current_note
          note_start confs prev_time rest,
        min_note_duration ≤ note.duration ∧ note.duration ≤ max_note_duration ∧
        note.duration = note.end_time - note.start_time := by
  intro rest
  induction rest with
  | nil =>
    intro current_note note_start confs prev_time note h
    exact mkCandidate_mem _ _ _ _ _ _ note h
  | cons f rest ih =>
    obtain ⟨t, m, c⟩ := f
    intro current_note note_start confs prev_time note h
    simp only [segmentNotes] at h
    split at h
    · exact ih _ _ _ _ note h
    · rcases List.mem_append.mp h with h1 | h1
      · exact mkCandidate_mem _ _ _ _ _ _ note h1
      · exact ih _ _ _ _ note h1

/-- Claim C6, amended (the positivity of the lower bound is needed, see the
counterexample): for equal-length F0 arrays and parameters with
`0 < min_note_duration ≤ max_note_duration`, every note returned by
`f0_to_midi_notes` satisfies `start_time < end_time` and
`min_note_duration ≤ duration ≤ max_note_duration`; runs whose duration
falls outside the bounds are discarded, not emitted. -/
theorem f0_to_midi_notes_duration_bounds (hz_to_midi_round : ℚ → ℤ)
    (f0_times f0_frequencies f0_confidence : List ℚ)
    (confidence_threshold min_note_duration max_note_duration : ℚ)
    (hlen1 : f0_times.length = f0_frequencies.length)
    (hlen2 : f0_frequencies.length = f0_confidence.length)
    (hmin : 0 < min_note_duration)
    (hminmax : min_note_duration ≤ max_note_duration) :
    ∀ note ∈ f0_to_midi_notes hz_to_midi_round f0_times f0_frequencies
        f0_confidence confidence_threshold min_note_duration max_note_duration,
      note.start_time < note.end_time ∧
      min_note_duration ≤ note.duration ∧ note.duration ≤ max_note_duration := by
  intro note h
  simp only [f0_to_midi_notes] at h
  split at h
  · exact absurd h (List.not_mem_nil note)
  · have hb := segmentNotes_mem min_note_duration max_note_duration _ _ _ _ _ note h
    refine ⟨?_, hb.1, hb.2.1⟩
    have hdur : note.duration = note.end_time - note.start_time := hb.2.2
    have : 0 < note.duration := lt_of_lt_of_le hmin hb.1
    rw [hdur] at this
    linarith

/-- Witness for the amended C6 on a concrete two-frame contour (both frames
the same pitch, 1/10 s apart, so one note of exactly the minimum length). -/
theorem f0_to_midi_notes_duration_bounds_witness :
    (([0, 1/10] : List ℚ).length = ([440, 440] : List ℚ).length) ∧
    (([440, 440] : List ℚ).length = ([1, 1] : List ℚ).length) ∧
    ((0:ℚ) < 1/10) ∧ ((1:ℚ)/10 ≤ 2) ∧
    (∀ note ∈ f0_to_midi_notes (fun _ => 69) [0, 1/10] [440, 440] [1, 1]
        (1/2) (1/10) 2,
      note.start_time < note.end_time ∧
      (1:ℚ)/10 ≤ note.duration ∧ note.duration ≤ 2) :=
  ⟨by simp, by simp, by norm_num, by norm_num,
   f0_to_midi_notes_duration_bounds (fun _ => 69) [0, 1/10] [440, 440] [1, 1]
     (1/2) (1/10) 2 (by simp) (by simp) (by norm_num) (by norm_num)⟩

/-- Claim C6, counterexample: with `min_note_duration = 0` (allowed by the
claim's `0 ≤ min ≤ max`), a single confident frame at time 0 yields a note
with `start_time = end_time = 0` — its duration 0 passes the guard, and
`start_time < end_time` fails. -/
theorem f0_to_midi_notes_zero_min_duration_note :
    ∃ note ∈ f0_to_midi_notes (fun _ => 69) [0] [440] [1] (1/2) 0 2,
      ¬ note.start_time < note.end_time := by
  refine ⟨{ pitch := 69, start_time := 0, end_time := 0, duration := 0,
            confidence := 1, velocity := 64 }, ?_, by norm_num⟩
  norm_num [f0_to_midi_notes, segmentNotes, mkCandidate, pyint,
    MIDI_VELOCITY_DEFAULT]

/-- Helper: the merge loop's output is nonempty and starts with an event
carrying the current chord's label (confidence updates never change it). -/
theorem mergeAux_head (ts : List ℚ) :
    ∀ (ls : List String) (cs : List ℚ) (current : ChordEvent),
      ∃ e tail, mergeAux current ts ls cs = e :: tail ∧ e.label = current.label := by
  induction ts with
  | nil =>
    intro ls cs current
    exact ⟨current, [], by cases ls <;> cases cs <;> rfl, rfl⟩
  | cons t ts ih =>
    intro ls cs current
    cases ls with
    | nil => exact ⟨current, [], rfl, rfl⟩
    | cons l ls =>
      cases cs with
      | nil => exact ⟨current, [], rfl, rfl⟩
      | cons c cs =>
        by_cases hl : l = current.label
        · obtain ⟨e, tail, heq, hlab⟩ :=
            ih ls cs { current with confidence := max current.confidence c }
          exact ⟨e, tail, by simp only [mergeAux, if_pos hl]; exact heq, hlab⟩
        · exact ⟨current, mergeAux { time := t, label := l, confidence := c } ts ls cs,
            by simp only [mergeAux, if_neg hl], rfl⟩

/-- Helper: the merge loop never emits two adjacent events with the same
label. -/
theorem mergeAux_chain (ts : List ℚ) :
    ∀ (ls : List String) (cs : List ℚ) (current : ChordEvent),
      List.Chain' (fun a b => a.label ≠ b.label) (mergeAux current ts ls cs) := by
  induction ts with
  | nil =>
    intro ls cs current
    cases ls <;> cases cs <;> exact List.chain'_singleton _
  | cons t ts ih =>
    intro ls cs current
    cases ls with
    | nil => exact List.chain'_singleton _
    | cons l ls =>
      cases cs with
      | nil => exact List.chain'_singleton _
      | cons c cs =>
        by_cases hl : l = current.label
        · simp only [mergeAux, if_pos hl]
          exact ih ls cs _
        · simp only [mergeAux, if_neg hl]
          obtain ⟨e, tail, heq, hlab⟩ :=
            mergeAux_head ts ls cs { time := t, label := l, confidence := c }
          rw [heq, List.chain'_cons]
          refine ⟨?_, ?_⟩
          · rw [hlab]
            intro hcontra
            exact hl hcontra.symm
          · rw [← heq]
            exact ih ls cs _

/-- Helper: the merged progression has no two adjacent events with the same
label, whatever the three input lists are. -/
theorem merge_consecutive_chords_chain (times : List ℚ) (labels : List String)
    (confidences : List ℚ) :
    List.Chain' (fun a b => a.label ≠ b.label)
      (merge_consecutive_chords times labels confidences) := by
  cases times with
  | nil => exact List.chain'_nil
  | cons t ts =>
    cases labels with
    | nil => exact List.chain'_nil
    | cons l ls =>
      cases confidences with
      | nil => exact List.chain'_nil
      | cons c cs => exact mergeAux_chain ts ls cs _

/-- Helper: folding an event list whose adjacent labels all differ back
through the merge loop reproduces it unchanged. -/
theorem mergeAux_of_chain (es : List ChordEvent) :
    ∀ e : ChordEvent, List.Chain' (fun a b => a.label ≠ b.label) (e :: es) →
      mergeAux e (es.map ChordEvent.time) (es.map ChordEvent.label)
        (es.map ChordEvent.confidence) = e :: es := by
  induction es with
  | nil => intro e _; rfl
  | cons e2 es ih =>
    intro e hch
    rw [List.chain'_cons] at hch
    have hne : ¬ e2.label = e.label := fun h => hch.1 h.symm
    simp only [List.map_cons, mergeAux, if_neg hne]
    have he2 : ({ time := e2.time, label := e2.label, confidence := e2.confidence } :
        ChordEvent) = e2 := rfl
    rw [he2, ih e2 hch.2]

/-- Helper: re-merging any already-merged progression is the identity. -/
theorem merge_consecutive_chords_of_chain (es : List ChordEvent)
    (h : List.Chain' (fun a b => a.label ≠ b.label) es) :
    merge_consecutive_chords (es.map ChordEvent.time) (es.map ChordEvent.label)
      (es.map ChordEvent.confidence) = es := by
  cases es with
  | nil => rfl
  | cons e es =>
    simp only [List.map_cons, merge_consecutive_chords]
    have he : ({ time := e.time, label := e.label, confidence := e.confidence } :
        ChordEvent) = e := rfl
    rw [he, mergeAux_of_chain es e h]

/-- Claim C5: `merge_consecutive_chords` is idempotent — applied to the
times/labels/confidences of its own (already-merged) output it returns that
output unchanged — and for every input no two adjacent output events share a
label. -/
theorem merge_consecutive_chords_idempotent (times : List ℚ)
    (labels : List String) (confidences : List ℚ) :
    (merge_consecutive_chords
        ((merge_consecutive_chords times labels confidences).map ChordEvent.time)
        ((merge_consecutive_chords times labels confidences).map ChordEvent.label)
        ((merge_consecutive_chords times labels confidences).map ChordEvent.confidence)
      = merge_consecutive_chords times labels confidences) ∧
    List.Chain' (fun a b => a.label ≠ b.label)
      (merge_consecutive_chords times labels confidences) :=
  ⟨merge_consecutive_chords_of_chain _
      (merge_consecutive_chords_chain times labels confidences),
   merge_consecutive_chords_chain times labels confidences⟩

/-- Helper: the dot product is symmetric. -/
theorem dotProd_comm : ∀ (a b : List ℚ), dotProd a b = dotProd b a := by
  intro a
  induction a with
  | nil => intro b; cases b <;> rfl
  | cons x a ih =>
    intro b
    cases b with
    | nil => rfl
    | cons y b =>
      simp only [dotProd, List.zipWith_cons_cons, List.sum_cons] at *
      rw [mul_comm x y, ih b]

/-- Helper: scaling the left vector scales the dot product. -/
theorem dotProd_smul_left (c : ℚ) : ∀ (a b : List ℚ),
    dotProd (a.map (fun x => c * x)) b = c * dotProd a b := by
  intro a
  induction a with
  | nil => intro b; simp [dotProd]
  | cons x a ih =>
    intro b
    cases b with
    | nil => simp [dotProd]
    | cons y b =>
      simp only [List.map_cons, dotProd, List.zipWith_cons_cons, List.sum_cons] at *
      rw [ih b]
      ring

/-- Helper: scaling a vector squares the scale in its squared norm. -/
theorem normSq_smul (c : ℚ) (a : List ℚ) :
    normSq (a.map (fun x => c * x)) = c ^ 2 * normSq a := by
  unfold normSq
  rw [dotProd_smul_left, dotProd_comm, dotProd_smul_left, dotProd_comm]
  ring

/-- Helper: the signed-square similarity is invariant under positive scaling
of the first vector — exactly the scale-invariance of cosine similarity. -/
theorem simSq_smul (c : ℚ) (hc : 0 < c) (a t : List ℚ) :
    simSq (a.map (fun x => c * x)) t = simSq a t := by
  simp only [simSq]
  rw [dotProd_smul_left, normSq_smul]
  rw [abs_mul, abs_of_pos hc]
  have hc2 : (c ^ 2 : ℚ) ≠ 0 := pow_ne_zero 2 hc.ne.symm
  calc c * dotProd a t * (c * |dotProd a t|) / (c ^ 2 * normSq a * normSq t)
      = c ^ 2 * (dotProd a t * |dotProd a t|) / (c ^ 2 * (normSq a * normSq t)) := by
        ring_nf
    _ = dotProd a t * |dotProd a t| / (normSq a * normSq t) :=
        mul_div_mul_left _ _ hc2

/-- Claim C3: for every 12-dimensional chroma vector (a nonnegative energy
distribution) with at least one positive entry and every scalar k > 0,
`detect_chord_from_chroma` returns the same chord label and the same
confidence for `k·v` as for `v`: the two runs compute equal similarities at
every template, so the whole best-template scan returns identical results. -/
theorem detect_chord_from_chroma_scale_invariant (v : List ℚ) (k : ℚ)
    (hlen : v.length = 12) (hnn : ∀ x ∈ v, 0 ≤ x) (hpos : ∃ x ∈ v, 0 < x)
    (hk : 0 < k) :
    detect_chord_from_chroma (v.map (fun x => k * x)) =
      detect_chord_from_chroma v := by
  have hsum : 0 < v.sum := by
    obtain ⟨x, hx, hxpos⟩ := hpos
    have := List.single_le_sum hnn x hx
    linarith
  have hksum : (v.map (fun x => k * x)).sum = k * v.sum := by
    have := List.sum_map_mul_left v id k
    simpa using this
  have hd1 : (0:ℚ) < (v.map (fun x => k * x)).sum + 1/100000000 := by
    rw [hksum]
    positivity
  have hd2 : (0:ℚ) < v.sum + 1/100000000 := by positivity
  have hc1 : (0:ℚ) < k / ((v.map (fun x => k * x)).sum + 1/100000000) := by positivity
  have hc2 : (0:ℚ) < 1 / (v.sum + 1/100000000) := by positivity
  have e1 : (v.map (fun x => k * x)).map
        (fun x => x / ((v.map (fun x => k * x)).sum + 1/100000000)) =
      v.map (fun x => (k / ((v.map (fun x => k * x)).sum + 1/100000000)) * x) := by
    rw [List.map_map]
    apply List.map_congr_left
    intro x _
    simp only [Function.comp_apply]
    ring
  have e2 : v.map (fun x => x / (v.sum + 1/100000000)) =
      v.map (fun x => (1 / (v.sum + 1/100000000)) * x) := by
    apply List.map_congr_left
    intro x _
    ring
  have hsim : ∀ tn : List ℚ,
      simSq ((v.map (fun x => k * x)).map
        (fun x => x / ((v.map (fun x => k * x)).sum + 1/100000000))) tn =
      simSq (v.map (fun x => x / (v.sum + 1/100000000))) tn := by
    intro tn
    rw [e1, e2, simSq_smul _ hc1, simSq_smul _ hc2]
  simp only [detect_chord_from_chroma]
  apply List.foldl_ext
  intro best t _
  rw [hsim]

/-- Witness for C3 at the chroma unit vector on pitch class C and k = 2. -/
theorem detect_chord_from_chroma_scale_invariant_witness :
    (([1, 0, 0, 0, 0, 0, 0, 0, 0, 0, 0, 0] : List ℚ).length = 12) ∧
    (∀ x ∈ ([1, 0, 0, 0, 0, 0, 0, 0, 0, 0, 0, 0] : List ℚ), 0 ≤ x) ∧
    (∃ x ∈ ([1, 0, 0, 0, 0, 0, 0, 0, 0, 0, 0, 0] : List ℚ), 0 < x) ∧
    ((0:ℚ) < 2) ∧
    detect_chord_from_chroma
        (([1, 0, 0, 0, 0, 0, 0, 0, 0, 0, 0, 0] : List ℚ).map (fun x => 2 * x)) =
      detect_chord_from_chroma [1, 0, 0, 0, 0, 0, 0, 0, 0, 0, 0, 0] :=
  ⟨by simp, by norm_num, ⟨1, by norm_num, by norm_num⟩, by norm_num,
   detect_chord_from_chroma_scale_invariant _ 2 (by simp) (by norm_num)
     ⟨1, by norm_num, by norm_num⟩ (by norm_num)⟩
